import Mathlib

/-!
Verification of the SATLAS fit-and-uncertainty engine.

This file gives a shallow embedding of the fitting routines in
`satlas/fitting.py` and the composite model in `satlas/models/summodel.py`,
and proves (or refutes) the specified properties about them.

Floating-point values are embedded as `ℚ` where only field arithmetic and
comparisons occur, and as `ℝ` where `sqrt`, `exp` or `log` appear in the
source.  `numpy.isclose(a, b)` with default tolerances is embedded as
`|a - b| ≤ 1e-8 + 1e-5 * |b|`.
-/

namespace Satlas

/-! ### numpy.isclose -/

/-- `np.isclose(a, b)` with the default `rtol=1e-5`, `atol=1e-8`, over `ℚ`. -/
def npIsCloseQ (a b : ℚ) : Prop := |a - b| ≤ 1 / 100000000 + 1 / 100000 * |b|

instance (a b : ℚ) : Decidable (npIsCloseQ a b) := by
  unfold npIsCloseQ
  infer_instance

/-! ### C1: the outer refit convergence loops of `chisquare_fit` and `likelihood_fit`

`chisquare_fit` (fitting.py:178-186) runs

    success = False
    counter = 0
    while not success:
        result = lm.minimize(...)            # re-run k = 1, 2, ...
        success = np.isclose(result.chisqr, f.chisqr)
        f.chisqr = copy.deepcopy(result.chisqr)
        if counter > 10 and not success:
            break

`counter` is never incremented in this loop.  `likelihood_fit`
(fitting.py:479-490) runs the same loop but with `counter += 1` at the top of
each iteration and the cap test written `if not success and counter > 10`.

The minimizer is abstracted as a stream `obj : ℕ → ℚ` of objective values:
`obj 0` is the value of the initial run and `obj k` the value after the k-th
re-run.  The loop is given fuel; `none` means the loop was still running after
`fuel` iterations. On `some (success, k)` the loop exited after re-run `k` with
the given success flag. -/

def chisquareLoop (obj : ℕ → ℚ) : ℕ → ℕ → ℕ → ℚ → Option (Bool × ℕ)
  | 0, _, _, _ => none
  | fuel + 1, k, counter, fchisqr =>
    let newchi := obj k
    if npIsCloseQ newchi fchisqr then some (true, k)
    else if 10 < counter then some (false, k)
    else chisquareLoop obj fuel (k + 1) counter newchi

/-- The refit loop of `chisquare_fit`: first minimize gives `obj 0`, then the
while-loop re-runs from index 1 with `counter = 0` (never incremented). -/
def chisquare_fit_loop (obj : ℕ → ℚ) (fuel : ℕ) : Option (Bool × ℕ) :=
  chisquareLoop obj fuel 1 0 (obj 0)

def likelihoodLoop (obj : ℕ → ℚ) : ℕ → ℕ → ℕ → ℚ → Option (Bool × ℕ)
  | 0, _, _, _ => none
  | fuel + 1, k, counter, val =>
    let counter2 := counter + 1
    let newval := obj k
    if npIsCloseQ val newval then some (true, k)
    else if 10 < counter2 then some (false, k)
    else likelihoodLoop obj fuel (k + 1) counter2 newval

/-- The refit loop of `likelihood_fit`: first scalar_minimize gives `obj 0`,
then the while-loop re-runs from index 1, incrementing `counter` each time. -/
def likelihood_fit_loop (obj : ℕ → ℚ) (fuel : ℕ) : Option (Bool × ℕ) :=
  likelihoodLoop obj fuel 1 0 (obj 0)

/-- A minimizer whose objective value alternates between 0 and 1 and therefore
never stabilizes between successive runs. -/
def altObj : ℕ → ℚ := fun n => if n % 2 = 0 then 0 else 1

/-! ### C2: `likelihood_walk` resuming an existing store (fitting.py:901-928)

The HDF5 dataset is embedded as a list of rows.  The ensemble sampler is
abstracted as `step : List Row → List Row` producing the next batch of walker
positions from the current one (the loop body keeps only `result[0]`, the
positions).  `sample_ball` initialisation is abstracted as `initPos`. -/

abbrev Row := List ℚ

/-- Assignment `dset[offset : offset + len(batch), :] = batch`. -/
def writeAt (l : List Row) (offset : ℕ) (batch : List Row) : List Row :=
  l.take offset ++ batch ++ l.drop (offset + batch.length)

/-- The successive position batches produced by
`sampler.sample(pos, iterations=nsteps, storechain=False)`. -/
def walkBatches (step : List Row → List Row) (pos : List Row) : ℕ → List (List Row)
  | 0 => []
  | n + 1 => step pos :: walkBatches step (step pos) n

/-- The write loop: batch `i` is written at `offset + i * walkers`. -/
def writeSeq (w : ℕ) : List Row → ℕ → List (List Row) → List Row
  | l, _, [] => l
  | l, offset, b :: bs => writeSeq w (writeAt l offset b) (offset + w) bs

/-- `likelihood_walk`, store-manipulation part.  When the file exists
(`fileExists = true`): `offset = dset.len()`, `pos = dset[-walkers:]`, the
dataset is resized by `nsteps * walkers` rows (new rows modelled as `[]`) and
each sampled batch is written at `offset + i * walkers`.  Otherwise a fresh
dataset of `nsteps * walkers` rows is created and written from row 0, seeded
from `initPos`. -/
def likelihood_walk_store (fileExists : Bool) (store : List Row) (initPos : List Row)
    (walkers nsteps : ℕ) (step : List Row → List Row) : List Row :=
  if fileExists then
    let offset := store.length
    let pos := store.drop (offset - walkers)
    writeSeq walkers (store ++ List.replicate (nsteps * walkers) ([] : Row)) offset
      (walkBatches step pos nsteps)
  else
    writeSeq walkers (List.replicate (nsteps * walkers) ([] : Row)) 0
      (walkBatches step initPos nsteps)

/-! ### C3: the `shared` setter of `SumModel` (summodel.py:60-72)

    params = self.params.copy()
    self._shared = value
    for name in self._shared:
        selected_list = [p for p in params.keys() if name in p]
        try:
            selected_name = selected_list[0]
            for p in selected_list[1:]:
                params[p].expr = selected_name
        except IndexError:
            pass
    self.params = params

An lmfit parameter is embedded with its value, vary flag and expression link;
an lmfit `Parameters` object as an ordered association list. -/

structure LmParam where
  value : ℚ
  vary : Bool
  expr : Option String
deriving DecidableEq, Repr

abbrev LmParams := List (String × LmParam)

/-- Does `needle` occur at the start of `hay`? -/
def charsStartWith : List Char → List Char → Bool
  | [], _ => true
  | _ :: _, [] => false
  | a :: as, b :: bs => a == b && charsStartWith as bs

/-- Does `needle` occur as a contiguous substring of `hay`? -/
def charsContain (needle : List Char) : List Char → Bool
  | [] => charsStartWith needle []
  | c :: bs => charsStartWith needle (c :: bs) || charsContain needle bs

/-- Python's `name in p` on strings: substring containment. -/
def pyIn (needle hay : String) : Bool := charsContain needle.data hay.data

/-- `params[p].expr = selected_name`. -/
def setExpr (ps : LmParams) (key target : String) : LmParams :=
  ps.map fun e => if e.1 = key then (e.1, { e.2 with expr := some target }) else e

/-- Body of the `for name in self._shared` loop: select all keys containing
`name`, then link every selected key after the first to the first. -/
def sharedLinkOne (ps : LmParams) (name : String) : LmParams :=
  match (ps.map Prod.fst).filter (fun p => pyIn name p) with
  | [] => ps
  | sel0 :: rest => rest.foldl (fun ps p => setExpr ps p sel0) ps

/-- The `shared` property setter of `SumModel`: starting from a copy of the
current parameters, apply the linking loop for each selected name. -/
def sharedSetter (ps : LmParams) (value : List String) : LmParams :=
  value.foldl sharedLinkOne ps

/-- Helper for stating counterexamples: the expression link recorded for
parameter `n` (if `n` exists). -/
def getExpr (ps : LmParams) (n : String) : Option (Option String) :=
  (ps.lookup n).map LmParam.expr

/-- A composite of two identical two-parameter sub-models after prefixing:
`SumModel` prefixes the children with `s0_` and `s1_`. -/
def twoModelParams : LmParams :=
  [("s0_Al", ⟨10, true, none⟩), ("s0_Bl", ⟨20, true, none⟩),
   ("s1_Al", ⟨10, true, none⟩), ("s1_Bl", ⟨20, true, none⟩)]

/-! ### C5, C6: the outward scan of `calculate_analytical_uncertainty`
(fitting.py:754-812)

`fit_new_value(v, ...)` (the refitted objective delta at probe value `v`) is
abstracted as `delta : ℚ → ℚ`.  The right-hand scan is

    search_value = value
    while True:
        search_value += 0.5*stderr
        if search_value > max: (bound reached, record max) break
        new_value = delta(search_value) - (1 - 0.5*(method == 'mle'))
        if new_value > 0:
            result = optimize.ridder(lambda v: delta(v) - thr, value, search_value)
            break

and the left-hand scan mirrors it with `-=`, `< min` and the comparison
written `delta(search_value) > 1 - 0.5*(method == 'mle')`. -/

inductive ScanStop where
  | bound : ScanStop
  | crossed : ScanStop
deriving DecidableEq, Repr

/-- The right-hand scan loop.  Returns the recorded range boundary and why the
loop stopped; `none` if the fuel ran out first. -/
def searchRight (delta : ℚ → ℚ) (pmax stepv thr : ℚ) : ℚ → ℕ → Option (ℚ × ScanStop)
  | _, 0 => none
  | sv, fuel + 1 =>
    let sv2 := sv + stepv
    if pmax < sv2 then some (pmax, ScanStop.bound)
    else if 0 < delta sv2 - thr then some (sv2, ScanStop.crossed)
    else searchRight delta pmax stepv thr sv2 fuel

/-- The left-hand scan loop. -/
def searchLeft (delta : ℚ → ℚ) (pmin stepv thr : ℚ) : ℚ → ℕ → Option (ℚ × ScanStop)
  | _, 0 => none
  | sv, fuel + 1 =>
    let sv2 := sv - stepv
    if sv2 < pmin then some (pmin, ScanStop.bound)
    else if thr < delta sv2 then some (sv2, ScanStop.crossed)
    else searchLeft delta pmin stepv thr sv2 fuel

/-- The standard-error fallback (fitting.py:758-760):

    stderr = stderr if stderr is not None else 0.01 * np.abs(value)
    stderr = stderr if stderr != 0 else 0.01 * np.abs(value) -/
def profileStderr (stderr : Option ℚ) (value : ℚ) : ℚ :=
  let s := match stderr with
    | none => 1 / 100 * |value|
    | some s => s
  if s = 0 then 1 / 100 * |value| else s

/-- The objective-increase target `1 - 0.5*(method.lower() == 'mle')`. -/
def profileThreshold (isMle : Bool) : ℚ := 1 - (if isMle then 1 / 2 else 0)

/-- The pair of abscissae handed to `optimize.ridder` after the right-hand
scan crosses the threshold: the call is `ridder(f, value, search_value)` with
`value` the optimal value the scan started from. -/
def searchRightRidderBracket (delta : ℚ → ℚ) (pmax stepv thr v0 : ℚ) (fuel : ℕ) :
    Option (ℚ × ℚ) :=
  match searchRight delta pmax stepv thr v0 fuel with
  | some (v, ScanStop.crossed) => some (v0, v)
  | _ => none

/-- The function whose root `optimize.ridder` is asked for:
`lambda v: fit_new_value(v, ...) - (1 - 0.5*(method == 'mle'))`. -/
def ridderTarget (delta : ℚ → ℚ) (thr v : ℚ) : ℚ := delta v - thr

/-- Specification of the right-hand scan: the loop stopped at the first probe
`v0 + k * stepv` (k ≥ 1) that exceeded the upper bound or whose objective
delta exceeded the threshold; all earlier probes were in bounds and below the
threshold. -/
def rightScanChar (delta : ℚ → ℚ) (pmax stepv thr v0 v : ℚ) (r : ScanStop) : Prop :=
  ∃ k : ℕ, 1 ≤ k ∧
    (∀ j : ℕ, 1 ≤ j → j < k →
      v0 + (j : ℚ) * stepv ≤ pmax ∧ delta (v0 + (j : ℚ) * stepv) - thr ≤ 0) ∧
    ((r = ScanStop.bound ∧ pmax < v0 + (k : ℚ) * stepv ∧ v = pmax) ∨
      (r = ScanStop.crossed ∧ v0 + (k : ℚ) * stepv ≤ pmax ∧
        0 < delta (v0 + (k : ℚ) * stepv) - thr ∧ v = v0 + (k : ℚ) * stepv))

/-- Specification of the left-hand scan, mirroring `rightScanChar`. -/
def leftScanChar (delta : ℚ → ℚ) (pmin stepv thr v0 v : ℚ) (r : ScanStop) : Prop :=
  ∃ k : ℕ, 1 ≤ k ∧
    (∀ j : ℕ, 1 ≤ j → j < k →
      pmin ≤ v0 - (j : ℚ) * stepv ∧ delta (v0 - (j : ℚ) * stepv) ≤ thr) ∧
    ((r = ScanStop.bound ∧ v0 - (k : ℚ) * stepv < pmin ∧ v = pmin) ∨
      (r = ScanStop.crossed ∧ pmin ≤ v0 - (k : ℚ) * stepv ∧
        thr < delta (v0 - (k : ℚ) * stepv) ∧ v = v0 - (k : ℚ) * stepv))

/-! ### C7: parameter restoration in `calculate_analytical_uncertainty`
(fitting.py:753-829)

Per selected parameter the function runs the profile search (which refits and
thereby overwrites `f.params` arbitrarily), records
`ranges[p] = (uncertainty, orig value)` and then restores
`f.params = deepcopy(orig_params)`.  After the loop it clears every stored
standard error, writes the profile uncertainties and recorded values into
`orig_params`, and stores the result in both `f.<save_attr>` and `f.params`.
The search is abstracted as an arbitrary function from the parameter name and
the current `f.params` to the mutated `f.params` and the found uncertainty. -/

structure UParam where
  value : ℚ
  stderr : Option ℚ
  vary : Bool
deriving DecidableEq, Repr

abbrev UParams := List (String × UParam)

/-- `orig_params[name].value` (0 if absent, which does not occur). -/
def lookupValue (ps : UParams) (n : String) : ℚ :=
  ((ps.lookup n).map UParam.value).getD 0

/-- The per-parameter loop: run the search, record the `ranges` entry
`(name, uncertainty, orig value)`, restore `f.params` to `orig_params`.
Returns the final `f.params` together with the recorded ranges. -/
def uncertaintyLoop (orig : UParams) (search : String → UParams → UParams × ℚ) :
    List String → UParams → UParams × List (String × ℚ × ℚ)
  | [], fparams => (fparams, [])
  | n :: ns, fparams =>
    let searched := search n fparams
    let rest := uncertaintyLoop orig search ns orig
    (rest.1, (n, searched.2, lookupValue orig n) :: rest.2)

/-- The dictionary update `orig_params[n].stderr = unc; orig_params[n].value = val`
for the range entry `r = (n, unc, val)`, acting on one association-list
element. -/
def rangeUpd (r : String × ℚ × ℚ) (e : String × UParam) : String × UParam :=
  if e.1 = r.1 then (e.1, { e.2 with stderr := some r.2.1, value := r.2.2 }) else e

/-- `orig_params[p].stderr = None` for every parameter, then the update
`rangeUpd` for each recorded range. -/
def applyRanges (orig : UParams) (ranges : List (String × ℚ × ℚ)) : UParams :=
  ranges.foldl (fun ps r => ps.map (rangeUpd r))
    (orig.map fun e => (e.1, { e.2 with stderr := none }))

/-- `calculate_analytical_uncertainty` from the point where `orig_params` has
been captured: run the per-parameter searches, then rebuild the parameter set
that is assigned to `f.params` (and `f.<save_attr>`) on return. -/
def calculate_analytical_uncertainty_params (orig : UParams)
    (search : String → UParams → UParams × ℚ) (names : List String) : UParams :=
  applyRanges orig (uncertaintyLoop orig search names orig).2

/-! ### C9: `SumModel.__call__` (summodel.py:279-291)

`return np.sum([s(x) for s in self.models], axis=0)`: the sub-models are
abstracted as their response functions (valid because, absent expression
links, each child's response depends only on its own prefixed parameters,
which construction and reordering preserve). -/

/-- `SumModel.__call__` on an input array. -/
def sumModelCall (models : List (ℚ → ℚ)) (x : List ℚ) : List ℚ :=
  x.map fun xi => (models.map fun s => s xi).sum

/-! ### C4: `assignHessianEstimate` (fitting.py:557-581)

    hess_vals = np.linalg.inv(Hfun(vars))
    if likelihood:
        hess_vals = -hess_vals
        multiplier = 1
    else:
        multiplier = 2
    for name, hess in zip(var_names, np.diag(multiplier*hess_vals)):
        f.params[name].stderr = np.sqrt(hess)
    ...
    f.params[name].correl[name2] = hess_vals[i, j] / np.sqrt(hess_vals[i, i]*hess_vals[j, j])

The numerically inverted Hessian `np.linalg.inv(Hfun(vars))` is abstracted as
a matrix `invH` over the free-parameter indices. -/

/-- The working matrix after the sign flip for the likelihood branch. -/
noncomputable def hessVals {n : ℕ} (invH : Fin n → Fin n → ℝ) (likelihood : Bool)
    (i j : Fin n) : ℝ :=
  if likelihood then -invH i j else invH i j

/-- The diagonal multiplier: 1 for likelihood, 2 for chisquare. -/
noncomputable def hessMultiplier (likelihood : Bool) : ℝ := if likelihood then 1 else 2

/-- The standard error stored for the i-th free parameter. -/
noncomputable def stderrEstimate {n : ℕ} (invH : Fin n → Fin n → ℝ) (likelihood : Bool)
    (i : Fin n) : ℝ :=
  Real.sqrt (hessMultiplier likelihood * hessVals invH likelihood i i)

/-- The correlation coefficient stored between the i-th and j-th free
parameters. -/
noncomputable def correlEstimate {n : ℕ} (invH : Fin n → Fin n → ℝ) (likelihood : Bool)
    (i j : Fin n) : ℝ :=
  hessVals invH likelihood i j /
    Real.sqrt (hessVals invH likelihood i i * hessVals invH likelihood j j)

/-- A concrete inverted Hessian of a two-parameter likelihood problem
(negative definite, as the Hessian of a log-likelihood at a maximum is). -/
noncomputable def likelihoodInvH : Fin 2 → Fin 2 → ℝ :=
  fun i j => if i = j then -1 else -(1 / 2)

/-! ### C8: `likelihood_x_err` (fitting.py:228-304) and
`likelihood_loglikelihood` (fitting.py:367-374)

    theta_array = np.linspace(-5, 5, 2**10)
    sqrt2pi = np.sqrt(2*np.pi)
    ...
    x_grid = x_grid + xerr * theta
    g = exp(-theta*theta * 0.5) / (sqrt2pi * xerr)
    vals = func(y_grid, f(x_grid))
    mod = vals.max(axis=0)
    p = exp(vals - mod)
    integral_value = np.fft.irfft(np.fft.rfft(p) * rfft_g)[:, -1]
    return np.log(integral_value) + mod

The rfft/irfft product computes the circular convolution of `p` and `g`
along the length-1024 theta axis; its entry at the last index is
`∑ t, p t * g (1023 - t)`, with no wrap-around.  The embedding is per data
point, with the model response `f` and the pointwise loglikelihood `llhf`
abstracted as functions. -/

/-- `np.linspace(-5, 5, 1024)`. -/
noncomputable def thetaGrid (t : Fin 1024) : ℝ := -5 + 10 * (t : ℝ) / 1023

/-- `sqrt2pi = np.sqrt(2*np.pi)`. -/
noncomputable def sqrt2pi : ℝ := Real.sqrt (2 * Real.pi)

/-- The grid index just right of θ = 0 (θ there is 5/1023). -/
def midIndex : Fin 1024 := ⟨512, by norm_num⟩

/-- The Gaussian kernel row `g`. -/
noncomputable def gaussKernel (xerr : ℝ) (t : Fin 1024) : ℝ :=
  Real.exp (-(thetaGrid t * thetaGrid t) * (1 / 2)) / (sqrt2pi * xerr)

/-- `vals`: the loglikelihood at each latent offset of the theta grid, for one
data point `(x, y)`. -/
noncomputable def xerrVals (f : ℝ → ℝ) (llhf : ℝ → ℝ → ℝ) (x y xerr : ℝ) (t : Fin 1024) : ℝ :=
  llhf y (f (x + xerr * thetaGrid t))

/-- `mod = vals.max(axis=0)` for one data point. -/
noncomputable def colMax (v : Fin 1024 → ℝ) : ℝ :=
  Finset.univ.sup' Finset.univ_nonempty v

/-- `likelihood_x_err` for one data point: the log of the convolution entry at
the last lag, plus the subtracted maximum. -/
noncomputable def likelihood_x_err_point (f : ℝ → ℝ) (llhf : ℝ → ℝ → ℝ) (x y xerr : ℝ) : ℝ :=
  Real.log (∑ t : Fin 1024,
      Real.exp (xerrVals f llhf x y xerr t - colMax (xerrVals f llhf x y xerr)) *
        gaussKernel xerr t.rev) +
    colMax (xerrVals f llhf x y xerr)

/-- The plain per-point loglikelihood `func(y, f(x))`. -/
noncomputable def likelihood_loglikelihood_point (f : ℝ → ℝ) (llhf : ℝ → ℝ → ℝ) (x y : ℝ) : ℝ :=
  llhf y (f x)

/-- `np.isclose(a, b)` with default tolerances over `ℝ`. -/
noncomputable def npIsCloseR (a b : ℝ) : Prop := |a - b| ≤ 1e-8 + 1e-5 * |b|

open scoped Classical in
/-- `likelihood_loglikelihood` for one data point: a scalar `xerr` that is
`None` or numerically close to 0 (`np.allclose(0, xerr)`) selects the plain
pointwise likelihood, otherwise the x-error convolution is used. -/
noncomputable def likelihood_loglikelihood_model (f : ℝ → ℝ) (llhf : ℝ → ℝ → ℝ)
    (x y : ℝ) (xerr : Option ℝ) : ℝ :=
  match xerr with
  | none => likelihood_loglikelihood_point f llhf x y
  | some e =>
    if npIsCloseR 0 e then likelihood_loglikelihood_point f llhf x y
    else likelihood_x_err_point f llhf x y e

/-- A model whose response is identically zero (e.g. `PolynomialModel([0])`);
its response does not depend on x at all. -/
noncomputable def constZeroModel : ℝ → ℝ := fun _ => 0

/-- A pointwise loglikelihood that is identically zero. -/
noncomputable def zeroLlh : ℝ → ℝ → ℝ := fun _ _ => 0

/-! ### C10: `chisquare_spectroscopic_fit` (fitting.py:120-123)

    y = np.hstack(y)
    yerr = np.sqrt(y)
    yerr[np.isclose(yerr, 0.0)] = 1.0 -/

open scoped Classical in
/-- The y-uncertainties derived by `chisquare_spectroscopic_fit` before it
delegates to `chisquare_fit`. -/
noncomputable def spectroscopicYerr (y : List ℝ) : List ℝ :=
  y.map fun v => if npIsCloseR (Real.sqrt v) 0 then 1 else Real.sqrt v

/-! ## Theorems -/

/-! ### C1 -/

theorem npIsCloseQ_one_zero_false : ¬ npIsCloseQ 1 0 := by
  unfold npIsCloseQ
  norm_num

theorem npIsCloseQ_zero_one_false : ¬ npIsCloseQ 0 1 := by
  unfold npIsCloseQ
  norm_num

theorem altObj_not_close (k : ℕ) : ¬ npIsCloseQ (altObj (k + 1)) (altObj k) := by
  rcases Nat.mod_two_eq_zero_or_one k with h | h
  · have h1 : (k + 1) % 2 = 1 := by omega
    simp only [altObj, h, h1]
    norm_num
    exact npIsCloseQ_one_zero_false
  · have h1 : (k + 1) % 2 = 0 := by omega
    simp only [altObj, h, h1]
    norm_num
    exact npIsCloseQ_zero_one_false

theorem chisquareLoop_never_exits (obj : ℕ → ℚ)
    (h : ∀ k, ¬ npIsCloseQ (obj (k + 1)) (obj k)) :
    ∀ fuel k, chisquareLoop obj fuel (k + 1) 0 (obj k) = none := by
  intro fuel
  induction fuel with
  | zero => intro k; rfl
  | succ n ih =>
    intro k
    rw [chisquareLoop]
    simp only [if_neg (h k)]
    norm_num
    exact ih (k + 1)

theorem likelihoodLoop_cap (obj : ℕ → ℚ)
    (h : ∀ k, ¬ npIsCloseQ (obj k) (obj (k + 1))) :
    ∀ fuel c k, c ≤ 10 → 11 - c ≤ fuel →
      likelihoodLoop obj fuel (k + 1) c (obj k) = some (false, k + (11 - c)) := by
  intro fuel
  induction fuel with
  | zero => intro c k hc hf; omega
  | succ n ih =>
    intro c k hc hf
    rw [likelihoodLoop]
    simp only [if_neg (h k)]
    by_cases h10 : 10 < c + 1
    · have hc10 : c = 10 := by omega
      subst hc10
      norm_num
    · rw [if_neg h10]
      have := ih (c + 1) (k + 1) (by omega) (by omega)
      rw [this]
      congr 2
      omega

/-- C1: the spec says both fitting families cap the refit loop at 10 re-runs
and return `success=false` when the cap is hit.  The code contradicts this:
`chisquare_fit` never increments its `counter`, so its cap check never fires
and the loop runs as long as the objective keeps changing (here: forever, for
a minimizer alternating between objective values 0 and 1), while
`likelihood_fit` breaks only when `counter > 10`, i.e. after 11 re-runs. -/
theorem chisquare_refit_cap_never_fires :
    (∀ fuel, chisquare_fit_loop altObj fuel = none) ∧
      likelihood_fit_loop altObj 50 = some (false, 11) := by
  constructor
  · intro fuel
    exact chisquareLoop_never_exits altObj altObj_not_close fuel 0
  · have h : ∀ k, ¬ npIsCloseQ (altObj k) (altObj (k + 1)) := by
      intro k
      rcases Nat.mod_two_eq_zero_or_one k with h | h
      · have h1 : (k + 1) % 2 = 1 := by omega
        simp only [altObj, h, h1]
        norm_num
        exact npIsCloseQ_zero_one_false
      · have h1 : (k + 1) % 2 = 0 := by omega
        simp only [altObj, h, h1]
        norm_num
        exact npIsCloseQ_one_zero_false
    exact likelihoodLoop_cap altObj h 50 0 0 (by omega) (by omega)

/-! ### C2 -/

theorem walkBatches_mem_length (step : List Row → List Row) (w : ℕ)
    (hstep : ∀ p, (step p).length = w) :
    ∀ n pos, ∀ b ∈ walkBatches step pos n, b.length = w := by
  intro n
  induction n with
  | zero => intro pos b hb; simp [walkBatches] at hb
  | succ m ih =>
    intro pos b hb
    rw [walkBatches] at hb
    rcases List.mem_cons.mp hb with h | h
    · rw [h]; exact hstep pos
    · exact ih (step pos) b h

theorem walkBatches_count (step : List Row → List Row) :
    ∀ n pos, (walkBatches step pos n).length = n := by
  intro n
  induction n with
  | zero => intro pos; rfl
  | succ m ih => intro pos; rw [walkBatches]; simp [ih]

theorem writeAt_into_blank (pre b : List Row) (m : ℕ) :
    writeAt (pre ++ List.replicate m ([] : Row)) pre.length b
      = (pre ++ b) ++ List.replicate (m - b.length) ([] : Row) := by
  unfold writeAt
  rw [List.take_left, List.drop_append, List.drop_replicate]

theorem writeSeq_into_blank (w : ℕ) :
    ∀ (bs : List (List Row)) (pre : List Row) (m : ℕ),
      (∀ b ∈ bs, b.length = w) → bs.length * w ≤ m →
      writeSeq w (pre ++ List.replicate m ([] : Row)) pre.length bs
        = pre ++ bs.flatten ++ List.replicate (m - bs.length * w) ([] : Row) := by
  intro bs
  induction bs with
  | nil => intro pre m _ _; simp [writeSeq]
  | cons b bs ih =>
    intro pre m hlen hm
    have hb : b.length = w := hlen b (List.mem_cons_self b bs)
    have hbs : ∀ x ∈ bs, x.length = w := fun x hx => hlen x (List.mem_cons_of_mem b hx)
    have hcount : (b :: bs).length * w = bs.length * w + w := by
      simp [List.length_cons]; ring
    rw [writeSeq, writeAt_into_blank pre b m]
    have hoff : pre.length + w = (pre ++ b).length := by
      simp [List.length_append, hb]
    rw [hoff, ih (pre ++ b) (m - b.length) hbs (by omega)]
    have harith : m - b.length - bs.length * w = m - (b :: bs).length * w := by
      have h1 : (b :: bs).length * w = bs.length * w + w := by
        rw [List.length_cons]; ring
      omega
    rw [harith]
    simp [List.flatten_cons, List.append_assoc]

/-- C2: when `likelihood_walk` finds an existing store, the new walker
positions are appended after the existing rows, the prior rows are unchanged
(`take store.length` returns them exactly), the walk is seeded from the last
`walkers` recorded rows (independently of the freshly initialized positions
`initPos`, which are discarded), and the resulting row count is the previous
row count plus `nsteps * walkers`. -/
theorem likelihood_walk_resume_appends (store initPos : List Row) (walkers nsteps : ℕ)
    (step : List Row → List Row) (_hw : walkers ≤ store.length)
    (hstep : ∀ p, (step p).length = walkers) :
    likelihood_walk_store true store initPos walkers nsteps step
        = store ++ (walkBatches step (store.drop (store.length - walkers)) nsteps).flatten ∧
      (likelihood_walk_store true store initPos walkers nsteps step).length
        = store.length + nsteps * walkers ∧
      (likelihood_walk_store true store initPos walkers nsteps step).take store.length
        = store := by
  have hmain : likelihood_walk_store true store initPos walkers nsteps step
      = store ++ (walkBatches step (store.drop (store.length - walkers)) nsteps).flatten := by
    unfold likelihood_walk_store
    rw [if_pos rfl]
    rw [writeSeq_into_blank walkers
      (walkBatches step (store.drop (store.length - walkers)) nsteps) store
      (nsteps * walkers)
      (walkBatches_mem_length step walkers hstep nsteps _)
      (by rw [walkBatches_count])]
    rw [walkBatches_count]
    have : nsteps * walkers - nsteps * walkers = 0 := by omega
    rw [mul_comm nsteps walkers] at this ⊢
    rw [this]
    simp
  refine ⟨hmain, ?_, ?_⟩
  · rw [hmain]
    rw [List.length_append, List.length_flatten]
    congr 1
    have hmap : (walkBatches step (store.drop (store.length - walkers)) nsteps).map
        List.length = List.replicate nsteps walkers := by
      apply List.eq_replicate_iff.mpr
      constructor
      · simp [walkBatches_count]
      · intro b hb
        rcases List.mem_map.mp hb with ⟨a, ha, rfl⟩
        exact walkBatches_mem_length step walkers hstep nsteps _ a ha
    rw [hmap]
    simp [List.sum_replicate, smul_eq_mul]
  · rw [hmain, List.take_left]

/-- Witness for C2: resuming a two-row store with 1 walker for 2 steps. -/
theorem likelihood_walk_resume_appends_witness :
    likelihood_walk_store true [[(1 : ℚ)], [(2 : ℚ)]] [[(9 : ℚ)]] 1 2 (fun _ => [[(5 : ℚ)]])
        = [[(1 : ℚ)], [(2 : ℚ)]] ++ (walkBatches (fun _ => [[(5 : ℚ)]])
            ([[(1 : ℚ)], [(2 : ℚ)]].drop ([[(1 : ℚ)], [(2 : ℚ)]].length - 1)) 2).flatten ∧
      (likelihood_walk_store true [[(1 : ℚ)], [(2 : ℚ)]] [[(9 : ℚ)]] 1 2
          (fun _ => [[(5 : ℚ)]])).length = [[(1 : ℚ)], [(2 : ℚ)]].length + 2 * 1 ∧
      (likelihood_walk_store true [[(1 : ℚ)], [(2 : ℚ)]] [[(9 : ℚ)]] 1 2
          (fun _ => [[(5 : ℚ)]])).take [[(1 : ℚ)], [(2 : ℚ)]].length
        = [[(1 : ℚ)], [(2 : ℚ)]] :=
  likelihood_walk_resume_appends [[(1 : ℚ)], [(2 : ℚ)]] [[(9 : ℚ)]] 1 2 (fun _ => [[(5 : ℚ)]])
    (by norm_num) (fun _ => rfl)

/-! ### C3 -/

/-- Counterexample to C3: on a composite of two sub-models with parameters
`Al` and `Bl`, selecting `["Al"]` and then `["Bl"]` leaves `s1_Al` linked to
`s0_Al` (the first selection is not restored), whereas applying `["Bl"]` to
the fresh composite leaves `s1_Al` free; the resulting parameter sets
differ. -/
theorem sharedSetter_does_not_restore :
    getExpr (sharedSetter (sharedSetter twoModelParams ["Al"]) ["Bl"]) "s1_Al"
        = some (some "s0_Al") ∧
      getExpr (sharedSetter twoModelParams ["Bl"]) "s1_Al" = some none ∧
      sharedSetter (sharedSetter twoModelParams ["Al"]) ["Bl"]
        ≠ sharedSetter twoModelParams ["Bl"] := by
  refine ⟨by decide, by decide, fun heq => ?_⟩
  have h1 : getExpr (sharedSetter (sharedSetter twoModelParams ["Al"]) ["Bl"]) "s1_Al"
      = some (some "s0_Al") := by decide
  rw [heq] at h1
  have h2 : getExpr (sharedSetter twoModelParams ["Bl"]) "s1_Al" = some none := by decide
  rw [h1] at h2
  exact Option.noConfusion (Option.some.inj h2)

/-- C3 amended: re-invoking the `shared` setter does not restore previously
linked parameters; it applies the new selection on top of the existing links,
so two successive selections are equivalent to one concatenated selection
(and, as the counterexample shows, generally differ from applying the second
selection to a fresh composite). -/
theorem sharedSetter_accumulates (ps : LmParams) (s1 s2 : List String) :
    sharedSetter (sharedSetter ps s1) s2 = sharedSetter ps (s1 ++ s2) := by
  unfold sharedSetter
  rw [List.foldl_append]

/-! ### C4 -/

/-- Counterexample to C4: in the likelihood branch the correlation recorded by
`assignHessianEstimate` is computed from the sign-flipped matrix `-H⁻¹`, not
from `H⁻¹`: for the concrete inverted Hessian `likelihoodInvH` the stored
correlation is `1/2` while the claimed formula
`H⁻¹(i,j)/sqrt(H⁻¹(i,i)·H⁻¹(j,j))` gives `-1/2`. -/
theorem correlEstimate_likelihood_sign_flip :
    correlEstimate likelihoodInvH true 0 1
      ≠ likelihoodInvH 0 1 / Real.sqrt (likelihoodInvH 0 0 * likelihoodInvH 1 1) := by
  have h01 : likelihoodInvH 0 1 = -(1 / 2) := by norm_num [likelihoodInvH]
  have h00 : likelihoodInvH 0 0 = -1 := by norm_num [likelihoodInvH]
  have h11 : likelihoodInvH 1 1 = -1 := by norm_num [likelihoodInvH]
  have hcode : correlEstimate likelihoodInvH true 0 1 = 1 / 2 := by
    unfold correlEstimate hessVals
    rw [if_pos rfl, if_pos rfl, if_pos rfl, h01, h00, h11]
    norm_num [Real.sqrt_one]
  have hclaim : likelihoodInvH 0 1 / Real.sqrt (likelihoodInvH 0 0 * likelihoodInvH 1 1)
      = -(1 / 2) := by
    rw [h01, h00, h11]
    norm_num [Real.sqrt_one]
  rw [hcode, hclaim]
  norm_num

/-- C4 amended: the standard errors are `sqrt(2·diag(H⁻¹))` (least squares)
and `sqrt(diag(−H⁻¹))` (likelihood) as claimed, and the correlation is the
normalized entry of the matrix actually used as covariance: `H⁻¹` for least
squares, but `−H⁻¹` for likelihood, where it equals the negative of the
claimed `H⁻¹`-normalized entry. -/
theorem assignHessianEstimate_formulas {n : ℕ} (invH : Fin n → Fin n → ℝ) (i j : Fin n) :
    stderrEstimate invH false i = Real.sqrt (2 * invH i i) ∧
      stderrEstimate invH true i = Real.sqrt (-invH i i) ∧
      correlEstimate invH false i j = invH i j / Real.sqrt (invH i i * invH j j) ∧
      correlEstimate invH true i j = -(invH i j / Real.sqrt (invH i i * invH j j)) := by
  refine ⟨?_, ?_, ?_, ?_⟩
  · unfold stderrEstimate hessMultiplier hessVals
    simp
  · unfold stderrEstimate hessMultiplier hessVals
    simp
  · unfold correlEstimate hessVals
    simp
  · unfold correlEstimate hessVals
    simp only [if_pos rfl, reduceIte]
    rw [neg_mul_neg, neg_div]

/-! ### C5 -/

theorem searchRight_char (delta : ℚ → ℚ) (pmax stepv thr : ℚ) :
    ∀ (fuel : ℕ) (v0 v : ℚ) (r : ScanStop),
      searchRight delta pmax stepv thr v0 fuel = some (v, r) →
      ∃ k : ℕ, 1 ≤ k ∧
        (∀ j : ℕ, 1 ≤ j → j < k →
          v0 + (j : ℚ) * stepv ≤ pmax ∧ delta (v0 + (j : ℚ) * stepv) - thr ≤ 0) ∧
        ((r = ScanStop.bound ∧ pmax < v0 + (k : ℚ) * stepv ∧ v = pmax) ∨
          (r = ScanStop.crossed ∧ v0 + (k : ℚ) * stepv ≤ pmax ∧
            0 < delta (v0 + (k : ℚ) * stepv) - thr ∧ v = v0 + (k : ℚ) * stepv)) := by
  intro fuel
  induction fuel with
  | zero =>
    intro v0 v r h
    exact absurd h (by simp [searchRight])
  | succ n ih =>
    intro v0 v r h
    have hshift : ∀ m : ℕ, v0 + stepv + (m : ℚ) * stepv = v0 + ((m + 1 : ℕ) : ℚ) * stepv := by
      intro m
      push_cast
      ring
    rw [searchRight] at h
    by_cases hb : pmax < v0 + stepv
    · rw [if_pos hb] at h
      simp only [Option.some.injEq, Prod.mk.injEq] at h
      obtain ⟨hv, hr⟩ := h
      refine ⟨1, le_refl 1, fun j hj1 hjk => absurd hjk (by omega), Or.inl ⟨hr.symm, ?_, hv.symm⟩⟩
      simpa using hb
    · rw [if_neg hb] at h
      by_cases hc : 0 < delta (v0 + stepv) - thr
      · rw [if_pos hc] at h
        simp only [Option.some.injEq, Prod.mk.injEq] at h
        obtain ⟨hv, hr⟩ := h
        refine ⟨1, le_refl 1, fun j hj1 hjk => absurd hjk (by omega),
          Or.inr ⟨hr.symm, ?_, ?_, ?_⟩⟩
        · simpa using not_lt.mp hb
        · simpa using hc
        · simpa using hv.symm
      · rw [if_neg hc] at h
        obtain ⟨k, hk1, hmid, hfin⟩ := ih (v0 + stepv) v r h
        refine ⟨k + 1, by omega, ?_, ?_⟩
        · intro j hj1 hjk
          rcases Nat.exists_eq_add_of_le hj1 with ⟨j2, rfl⟩
          cases j2 with
          | zero =>
            constructor
            · simpa using not_lt.mp hb
            · simpa using not_lt.mp hc
          | succ m =>
            have := hmid (m + 1) (by omega) (by omega)
            rw [hshift (m + 1)] at this
            have harg : (1 + (m + 1) : ℕ) = (m + 1 + 1 : ℕ) := by omega
            rw [harg]
            exact this
        · rw [hshift k] at hfin
          exact hfin

theorem searchLeft_char (delta : ℚ → ℚ) (pmin stepv thr : ℚ) :
    ∀ (fuel : ℕ) (v0 v : ℚ) (r : ScanStop),
      searchLeft delta pmin stepv thr v0 fuel = some (v, r) →
      ∃ k : ℕ, 1 ≤ k ∧
        (∀ j : ℕ, 1 ≤ j → j < k →
          pmin ≤ v0 - (j : ℚ) * stepv ∧ delta (v0 - (j : ℚ) * stepv) ≤ thr) ∧
        ((r = ScanStop.bound ∧ v0 - (k : ℚ) * stepv < pmin ∧ v = pmin) ∨
          (r = ScanStop.crossed ∧ pmin ≤ v0 - (k : ℚ) * stepv ∧
            thr < delta (v0 - (k : ℚ) * stepv) ∧ v = v0 - (k : ℚ) * stepv)) := by
  intro fuel
  induction fuel with
  | zero =>
    intro v0 v r h
    exact absurd h (by simp [searchLeft])
  | succ n ih =>
    intro v0 v r h
    have hshift : ∀ m : ℕ, v0 - stepv - (m : ℚ) * stepv = v0 - ((m + 1 : ℕ) : ℚ) * stepv := by
      intro m
      push_cast
      ring
    rw [searchLeft] at h
    by_cases hb : v0 - stepv < pmin
    · rw [if_pos hb] at h
      simp only [Option.some.injEq, Prod.mk.injEq] at h
      obtain ⟨hv, hr⟩ := h
      refine ⟨1, le_refl 1, fun j hj1 hjk => absurd hjk (by omega), Or.inl ⟨hr.symm, ?_, hv.symm⟩⟩
      simpa using hb
    · rw [if_neg hb] at h
      by_cases hc : thr < delta (v0 - stepv)
      · rw [if_pos hc] at h
        simp only [Option.some.injEq, Prod.mk.injEq] at h
        obtain ⟨hv, hr⟩ := h
        refine ⟨1, le_refl 1, fun j hj1 hjk => absurd hjk (by omega),
          Or.inr ⟨hr.symm, ?_, ?_, ?_⟩⟩
        · simpa using not_lt.mp hb
        · simpa using hc
        · simpa using hv.symm
      · rw [if_neg hc] at h
        obtain ⟨k, hk1, hmid, hfin⟩ := ih (v0 - stepv) v r h
        refine ⟨k + 1, by omega, ?_, ?_⟩
        · intro j hj1 hjk
          rcases Nat.exists_eq_add_of_le hj1 with ⟨j2, rfl⟩
          cases j2 with
          | zero =>
            constructor
            · simpa using not_lt.mp hb
            · simpa using not_lt.mp hc
          | succ m =>
            have := hmid (m + 1) (by omega) (by omega)
            rw [hshift (m + 1)] at this
            have harg : (1 + (m + 1) : ℕ) = (m + 1 + 1 : ℕ) := by omega
            rw [harg]
            exact this
        · rw [hshift k] at hfin
          exact hfin

/-- C5: in the profile-likelihood search the scan threshold is 1 for the
least-squares methods and 0.5 for the likelihood method, the step is half of
the resolved standard error, whose fallback is 1% of `|v0|` when the stored
error is `None` or 0, and whenever a scan loop returns, it stopped exactly at
the first probe (`v0 ± k·step`, `k ≥ 1`) that exceeded the parameter's hard
bound or whose refitted objective delta exceeded the threshold, every earlier
probe having been in bounds with a delta at most the threshold. -/
theorem calculate_analytical_uncertainty_scan_spec (delta : ℚ → ℚ) (stderr : Option ℚ)
    (v0 pmax pmin : ℚ) (isMle : Bool) (fuelR fuelL : ℕ) (vR vL : ℚ) (rR rL : ScanStop)
    (hR : searchRight delta pmax (1 / 2 * profileStderr stderr v0) (profileThreshold isMle)
        v0 fuelR = some (vR, rR))
    (hL : searchLeft delta pmin (1 / 2 * profileStderr stderr v0) (profileThreshold isMle)
        v0 fuelL = some (vL, rL)) :
    profileThreshold false = 1 ∧ profileThreshold true = 1 / 2 ∧
      (∀ w : ℚ, profileStderr none w = 1 / 100 * |w|) ∧
      (∀ w : ℚ, profileStderr (some 0) w = 1 / 100 * |w|) ∧
      (∀ s w : ℚ, s ≠ 0 → profileStderr (some s) w = s) ∧
      rightScanChar delta pmax (1 / 2 * profileStderr stderr v0) (profileThreshold isMle)
        v0 vR rR ∧
      leftScanChar delta pmin (1 / 2 * profileStderr stderr v0) (profileThreshold isMle)
        v0 vL rL := by
  refine ⟨by norm_num [profileThreshold], by norm_num [profileThreshold], ?_, ?_, ?_, ?_, ?_⟩
  · intro w
    simp [profileStderr]
  · intro w
    simp [profileStderr]
  · intro s w hs
    simp [profileStderr, hs]
  · exact searchRight_char delta pmax _ _ fuelR v0 vR rR hR
  · exact searchLeft_char delta pmin _ _ fuelL v0 vL rL hL

theorem scanWitnessRight : searchRight (fun w => w * w) 10
    (1 / 2 * profileStderr (some 2) 0) (profileThreshold false) 0 3
      = some (2, ScanStop.crossed) := by
  have hs : (1 / 2 : ℚ) * profileStderr (some 2) 0 = 1 := by norm_num [profileStderr]
  have ht : profileThreshold false = 1 := by norm_num [profileThreshold]
  rw [hs, ht]
  rw [searchRight]
  norm_num
  rw [searchRight]
  norm_num

theorem scanWitnessLeft : searchLeft (fun w => w * w) (-10)
    (1 / 2 * profileStderr (some 2) 0) (profileThreshold false) 0 3
      = some (-2, ScanStop.crossed) := by
  have hs : (1 / 2 : ℚ) * profileStderr (some 2) 0 = 1 := by norm_num [profileStderr]
  have ht : profileThreshold false = 1 := by norm_num [profileThreshold]
  rw [hs, ht]
  rw [searchLeft]
  norm_num
  rw [searchLeft]
  norm_num

/-- Witness for C5: a scan of `delta v = v²` from 0 with stored standard error
2 (step 1, threshold 1) stops at probe 2 on the right and probe -2 on the
left. -/
theorem calculate_analytical_uncertainty_scan_spec_witness :
    profileThreshold false = 1 ∧ profileThreshold true = 1 / 2 ∧
      (∀ w : ℚ, profileStderr none w = 1 / 100 * |w|) ∧
      (∀ w : ℚ, profileStderr (some 0) w = 1 / 100 * |w|) ∧
      (∀ s w : ℚ, s ≠ 0 → profileStderr (some s) w = s) ∧
      rightScanChar (fun w => w * w) 10 (1 / 2 * profileStderr (some 2) 0)
        (profileThreshold false) 0 2 ScanStop.crossed ∧
      leftScanChar (fun w => w * w) (-10) (1 / 2 * profileStderr (some 2) 0)
        (profileThreshold false) 0 (-2) ScanStop.crossed :=
  calculate_analytical_uncertainty_scan_spec (fun w => w * w) (some 2) 0 10 (-10) false 3 3
    2 (-2) ScanStop.crossed ScanStop.crossed scanWitnessRight scanWitnessLeft

/-! ### C6 -/

theorem idScanCross : searchRight (fun v => v) 10 1 1 0 3 = some (2, ScanStop.crossed) := by
  rw [searchRight]
  norm_num
  rw [searchRight]
  norm_num

/-- Counterexample to C6: scanning `delta v = v` from 0 with step 1 and
threshold 1 crosses at the second probe, so the last two probe values are
`0 + 1*1 = 1` and `0 + 2*1 = 2`; but the bracket handed to `optimize.ridder`
is `(value, search_value) = (0, 2)`, anchored at the optimal value, not at the
second-to-last probe. -/
theorem ridder_bracket_not_last_two_probes :
    searchRight (fun v => v) 10 1 1 0 3 = some (2, ScanStop.crossed) ∧
      searchRightRidderBracket (fun v => v) 10 1 1 0 3 = some (0, 2) ∧
      some ((0 : ℚ), (2 : ℚ)) ≠ some ((0 + (1 : ℚ) * 1, 0 + (2 : ℚ) * 1)) := by
  refine ⟨idScanCross, ?_, by norm_num⟩
  unfold searchRightRidderBracket
  rw [idScanCross]

/-- C6 amended: after the scan crosses the threshold, the code root-finds
`delta(v) - threshold` with `optimize.ridder` on the bracket
`(v0, crossing probe)` — the interval from the optimal value to the first
probe beyond the threshold, not the last two probe values.  Because the
refitted delta at the optimum is 0 (`fit_new_value` returns 0 there) and the
threshold is positive, this bracket does enclose a sign change of the ridder
target. -/
theorem searchRightRidderBracket_spec (delta : ℚ → ℚ) (pmax stepv thr v0 : ℚ) (fuel : ℕ)
    (v : ℚ) (hcross : searchRight delta pmax stepv thr v0 fuel = some (v, ScanStop.crossed))
    (hv0 : delta v0 = 0) (hthr : 0 < thr) :
    searchRightRidderBracket delta pmax stepv thr v0 fuel = some (v0, v) ∧
      ridderTarget delta thr v0 < 0 ∧ 0 < ridderTarget delta thr v := by
  refine ⟨?_, ?_, ?_⟩
  · unfold searchRightRidderBracket
    rw [hcross]
  · rw [ridderTarget, hv0]
    linarith
  · obtain ⟨k, _, _, hfin⟩ := searchRight_char delta pmax stepv thr fuel v0 v _ hcross
    rcases hfin with ⟨hr, _, _⟩ | ⟨_, _, hpos, hveq⟩
    · exact absurd hr (by simp)
    · rw [ridderTarget, hveq]
      exact hpos

/-- Witness for C6: the concrete crossing scan of `delta v = v`. -/
theorem searchRightRidderBracket_spec_witness :
    searchRightRidderBracket (fun v => v) 10 1 1 0 3 = some (0, 2) ∧
      ridderTarget (fun v => v) 1 0 < 0 ∧ 0 < ridderTarget (fun v => v) 1 2 :=
  searchRightRidderBracket_spec (fun v => v) 10 1 1 0 3 2 idScanCross rfl (by norm_num)

/-! ### C7 -/

theorem uncertaintyLoop_names (orig : UParams) (search : String → UParams → UParams × ℚ) :
    ∀ (names : List String) (fp : UParams),
      ((uncertaintyLoop orig search names fp).2.map fun r => r.1) = names := by
  intro names
  induction names with
  | nil => intro fp; rfl
  | cons n ns ih =>
    intro fp
    rw [uncertaintyLoop]
    simp [ih]

theorem uncertaintyLoop_vals (orig : UParams) (search : String → UParams → UParams × ℚ) :
    ∀ (names : List String) (fp : UParams) (r : String × ℚ × ℚ),
      r ∈ (uncertaintyLoop orig search names fp).2 → r.2.2 = lookupValue orig r.1 := by
  intro names
  induction names with
  | nil => intro fp r hr; simp [uncertaintyLoop] at hr
  | cons n ns ih =>
    intro fp r hr
    rw [uncertaintyLoop] at hr
    rcases List.mem_cons.mp hr with h | h
    · rw [h]
    · exact ih orig r h

theorem lookup_of_mem_nodup :
    ∀ (l : UParams), (l.map Prod.fst).Nodup → ∀ e ∈ l, l.lookup e.1 = some e.2 := by
  intro l
  induction l with
  | nil => intro _ e he; simp at he
  | cons a l ih =>
    intro hnd e he
    simp only [List.map_cons, List.nodup_cons] at hnd
    rcases List.mem_cons.mp he with h | h
    · subst h
      simp [List.lookup]
    · have hne : a.1 ≠ e.1 := by
        intro hcontr
        exact hnd.1 (hcontr ▸ List.mem_map_of_mem Prod.fst h)
      have hbeq : (e.1 == a.1) = false := by
        exact beq_eq_false_iff_ne.mpr fun hcontr => hne hcontr.symm
      rw [List.lookup, hbeq]
      exact ih hnd.2 e h

theorem foldl_map_map {γ β : Type} (h : γ → β → β) :
    ∀ (rs : List γ) (l : List β),
      rs.foldl (fun ps r => ps.map (h r)) l = l.map fun e => rs.foldl (fun x r => h r x) e := by
  intro rs
  induction rs with
  | nil => intro l; simp
  | cons r rs ih =>
    intro l
    simp only [List.foldl_cons]
    rw [ih (l.map (h r)), List.map_map]
    rfl

theorem rangeFold_fst :
    ∀ (rs : List (String × ℚ × ℚ)) (x : String × UParam),
      (rs.foldl (fun x r => rangeUpd r x) x).1 = x.1 := by
  intro rs
  induction rs with
  | nil => intro x; rfl
  | cons r rs ih =>
    intro x
    rw [List.foldl_cons]
    rw [ih (rangeUpd r x)]
    unfold rangeUpd
    split
    · rfl
    · rfl

theorem rangeFold_vary :
    ∀ (rs : List (String × ℚ × ℚ)) (x : String × UParam),
      (rs.foldl (fun x r => rangeUpd r x) x).2.vary = x.2.vary := by
  intro rs
  induction rs with
  | nil => intro x; rfl
  | cons r rs ih =>
    intro x
    rw [List.foldl_cons]
    rw [ih (rangeUpd r x)]
    unfold rangeUpd
    split
    · rfl
    · rfl

theorem rangeFold_value :
    ∀ (rs : List (String × ℚ × ℚ)) (x : String × UParam),
      (∀ r ∈ rs, r.1 = x.1 → r.2.2 = x.2.value) →
      (rs.foldl (fun x r => rangeUpd r x) x).2.value = x.2.value := by
  intro rs
  induction rs with
  | nil => intro x _; rfl
  | cons r rs ih =>
    intro x hv
    rw [List.foldl_cons]
    by_cases hx : x.1 = r.1
    · have hval : r.2.2 = x.2.value := hv r (List.mem_cons_self r rs) hx.symm
      have hupd : rangeUpd r x = (x.1, { x.2 with stderr := some r.2.1, value := r.2.2 }) := by
        unfold rangeUpd
        rw [if_pos hx]
      rw [hupd]
      rw [ih _ ?_]
      · simp [hval]
      · intro r2 hr2 hr2x
        exact (hv r2 (List.mem_cons_of_mem r hr2) hr2x).trans hval.symm
    · have hupd : rangeUpd r x = x := by
        unfold rangeUpd
        rw [if_neg hx]
      rw [hupd]
      exact ih x fun r2 hr2 => hv r2 (List.mem_cons_of_mem r hr2)

theorem rangeFold_stderr_none :
    ∀ (rs : List (String × ℚ × ℚ)) (x : String × UParam),
      (∀ r ∈ rs, r.1 ≠ x.1) →
      (rs.foldl (fun x r => rangeUpd r x) x).2.stderr = x.2.stderr := by
  intro rs
  induction rs with
  | nil => intro x _; rfl
  | cons r rs ih =>
    intro x hn
    rw [List.foldl_cons]
    have hupd : rangeUpd r x = x := by
      unfold rangeUpd
      rw [if_neg fun hcontr => hn r (List.mem_cons_self r rs) hcontr.symm]
    rw [hupd]
    exact ih x fun r2 hr2 => hn r2 (List.mem_cons_of_mem r hr2)

theorem rangeFold_stderr_keeps_some :
    ∀ (rs : List (String × ℚ × ℚ)) (x : String × UParam) (u : ℚ),
      x.2.stderr = some u →
      ∃ w, (rs.foldl (fun x r => rangeUpd r x) x).2.stderr = some w := by
  intro rs
  induction rs with
  | nil => intro x u hu; exact ⟨u, hu⟩
  | cons r rs ih =>
    intro x u hu
    rw [List.foldl_cons]
    unfold rangeUpd
    split
    · exact ih _ r.2.1 rfl
    · exact ih x u hu

theorem rangeFold_stderr_some :
    ∀ (rs : List (String × ℚ × ℚ)) (x : String × UParam),
      (∃ r ∈ rs, r.1 = x.1) →
      ∃ w, (rs.foldl (fun x r => rangeUpd r x) x).2.stderr = some w := by
  intro rs
  induction rs with
  | nil => intro x hx; simp at hx
  | cons r rs ih =>
    intro x hx
    rw [List.foldl_cons]
    by_cases hr : r.1 = x.1
    · have hupd : rangeUpd r x = (x.1, { x.2 with stderr := some r.2.1, value := r.2.2 }) := by
        unfold rangeUpd
        rw [if_pos hr.symm]
      rw [hupd]
      exact rangeFold_stderr_keeps_some rs _ r.2.1 rfl
    · have hupd : rangeUpd r x = x := by
        unfold rangeUpd
        rw [if_neg fun hcontr => hr hcontr.symm]
      rw [hupd]
      rcases hx with ⟨r2, hr2, hr2x⟩
      rcases List.mem_cons.mp hr2 with h | h
      · exact absurd (h ▸ hr2x) hr
      · exact ih x ⟨r2, h, hr2x⟩

/-- C7: whatever the per-parameter profile searches do to `f.params`
(including terminating early at a bound), `calculate_analytical_uncertainty`
hands back a parameter set whose names, values and vary flags are exactly
those of the optimum captured in `orig_params` before the search began; only
the stored standard errors change — cleared for unselected parameters,
replaced by the profile-derived uncertainty for selected ones. -/
theorem calculate_analytical_uncertainty_restores (orig : UParams)
    (search : String → UParams → UParams × ℚ) (names : List String)
    (hnodup : (orig.map Prod.fst).Nodup) :
    ((calculate_analytical_uncertainty_params orig search names).map Prod.fst
        = orig.map Prod.fst) ∧
      ((calculate_analytical_uncertainty_params orig search names).map (fun e => e.2.value)
        = orig.map fun e => e.2.value) ∧
      ((calculate_analytical_uncertainty_params orig search names).map (fun e => e.2.vary)
        = orig.map fun e => e.2.vary) ∧
      (∀ e ∈ calculate_analytical_uncertainty_params orig search names,
        (e.1 ∉ names → e.2.stderr = none) ∧ (e.1 ∈ names → ∃ u, e.2.stderr = some u)) := by
  have hfold : calculate_analytical_uncertainty_params orig search names
      = orig.map (fun e => (uncertaintyLoop orig search names orig).2.foldl
          (fun x r => rangeUpd r x) (e.1, { e.2 with stderr := none })) := by
    unfold calculate_analytical_uncertainty_params applyRanges
    rw [foldl_map_map rangeUpd (uncertaintyLoop orig search names orig).2
      (orig.map fun e => (e.1, { e.2 with stderr := none })), List.map_map]
    rfl
  have hvals : ∀ e ∈ orig, ∀ r ∈ (uncertaintyLoop orig search names orig).2,
      r.1 = e.1 → r.2.2 = e.2.value := by
    intro e he r hr hre
    rw [uncertaintyLoop_vals orig search names orig r hr, hre]
    unfold lookupValue
    rw [lookup_of_mem_nodup orig hnodup e he]
    rfl
  refine ⟨?_, ?_, ?_, ?_⟩
  · rw [hfold, List.map_map]
    apply List.map_congr_left
    intro e _
    exact rangeFold_fst _ _
  · rw [hfold, List.map_map]
    apply List.map_congr_left
    intro e he
    exact rangeFold_value _ _ (fun r hr hre => hvals e he r hr hre)
  · rw [hfold, List.map_map]
    apply List.map_congr_left
    intro e _
    exact rangeFold_vary _ _
  · intro e2 he2
    rw [hfold] at he2
    rcases List.mem_map.mp he2 with ⟨e, he, rfl⟩
    have hfst : ((uncertaintyLoop orig search names orig).2.foldl
        (fun x r => rangeUpd r x) (e.1, { e.2 with stderr := none })).1 = e.1 :=
      rangeFold_fst _ _
    rw [hfst]
    constructor
    · intro hnotin
      apply rangeFold_stderr_none
      intro r hr
      intro hre
      apply hnotin
      rw [← hre, ← uncertaintyLoop_names orig search names orig]
      exact List.mem_map_of_mem (fun r => r.1) hr
    · intro hin
      apply rangeFold_stderr_some
      rw [← uncertaintyLoop_names orig search names orig] at hin
      rcases List.mem_map.mp hin with ⟨r, hr, hre⟩
      exact ⟨r, hr, hre⟩

/-- Witness for C7: a two-parameter set with one searched parameter and a
search that scrambles `f.params` and reports uncertainty 7. -/
theorem calculate_analytical_uncertainty_restores_witness :
    ((calculate_analytical_uncertainty_params
          [("a", ⟨3, none, true⟩), ("b", ⟨4, some 1, true⟩)]
          (fun _ _ => ([("z", ⟨0, none, false⟩)], 7)) ["a"]).map Prod.fst
        = [("a", (⟨3, none, true⟩ : UParam)), ("b", ⟨4, some 1, true⟩)].map Prod.fst) ∧
      ((calculate_analytical_uncertainty_params
          [("a", ⟨3, none, true⟩), ("b", ⟨4, some 1, true⟩)]
          (fun _ _ => ([("z", ⟨0, none, false⟩)], 7)) ["a"]).map (fun e => e.2.value)
        = [("a", (⟨3, none, true⟩ : UParam)), ("b", ⟨4, some 1, true⟩)].map
            fun e => e.2.value) ∧
      ((calculate_analytical_uncertainty_params
          [("a", ⟨3, none, true⟩), ("b", ⟨4, some 1, true⟩)]
          (fun _ _ => ([("z", ⟨0, none, false⟩)], 7)) ["a"]).map (fun e => e.2.vary)
        = [("a", (⟨3, none, true⟩ : UParam)), ("b", ⟨4, some 1, true⟩)].map
            fun e => e.2.vary) ∧
      (∀ e ∈ calculate_analytical_uncertainty_params
          [("a", ⟨3, none, true⟩), ("b", ⟨4, some 1, true⟩)]
          (fun _ _ => ([("z", ⟨0, none, false⟩)], 7)) ["a"],
        (e.1 ∉ ["a"] → e.2.stderr = none) ∧ (e.1 ∈ ["a"] → ∃ u, e.2.stderr = some u)) :=
  calculate_analytical_uncertainty_restores
    [("a", ⟨3, none, true⟩), ("b", ⟨4, some 1, true⟩)]
    (fun _ _ => ([("z", ⟨0, none, false⟩)], 7)) ["a"] (by decide)

/-! ### C9 -/

/-- C9: `SumModel.__call__` returns, at every point of the input array, the
elementwise sum of the children's responses, and is therefore unchanged when
the two children are given in the opposite order. -/
theorem sumModel_call_swap (a b : ℚ → ℚ) (x : List ℚ) :
    sumModelCall [a, b] x = (x.map fun xi => a xi + b xi) ∧
      sumModelCall [a, b] x = sumModelCall [b, a] x := by
  constructor
  · unfold sumModelCall
    simp
  · unfold sumModelCall
    simp [add_comm]

/-! ### C10 -/

open scoped Classical in
/-- C10: `chisquare_spectroscopic_fit` derives the y-uncertainties as the
elementwise square root of the counts, replaces every uncertainty that is
numerically close to zero by 1.0 (in particular at zero-count points, where
the square root is exactly 0), and hands `chisquare_fit` one uncertainty per
data point, each strictly positive — the residual division is never by
zero. -/
theorem chisquare_spectroscopic_yerr (y : List ℝ) (_hy : ∀ v ∈ y, 0 ≤ v) :
    spectroscopicYerr y = (y.map fun v => if Real.sqrt v ≤ 1e-8 then 1 else Real.sqrt v) ∧
      (∀ e ∈ spectroscopicYerr y, 0 < e) ∧
      (spectroscopicYerr y).length = y.length := by
  have hcond : ∀ v : ℝ, npIsCloseR (Real.sqrt v) 0 ↔ Real.sqrt v ≤ 1e-8 := by
    intro v
    unfold npIsCloseR
    rw [sub_zero, abs_of_nonneg (Real.sqrt_nonneg v)]
    norm_num
  refine ⟨?_, ?_, ?_⟩
  · unfold spectroscopicYerr
    apply List.map_congr_left
    intro v _
    by_cases h : Real.sqrt v ≤ 1e-8
    · rw [if_pos ((hcond v).mpr h), if_pos h]
    · rw [if_neg fun hc => h ((hcond v).mp hc), if_neg h]
  · intro e he
    unfold spectroscopicYerr at he
    rcases List.mem_map.mp he with ⟨v, _, rfl⟩
    by_cases h : npIsCloseR (Real.sqrt v) 0
    · rw [if_pos h]
      norm_num
    · rw [if_neg h]
      have h2 : (1e-8 : ℝ) < Real.sqrt v := not_le.mp fun hc => h ((hcond v).mpr hc)
      linarith
  · unfold spectroscopicYerr
    exact List.length_map y _

/-- Witness for C10: counts `[0, 4]` (a zero-count point included). -/
theorem chisquare_spectroscopic_yerr_witness :
    spectroscopicYerr [0, 4]
        = ([0, 4].map fun v => if Real.sqrt v ≤ 1e-8 then 1 else Real.sqrt v) ∧
      (∀ e ∈ spectroscopicYerr [0, 4], 0 < e) ∧
      (spectroscopicYerr [0, 4]).length = [(0 : ℝ), 4].length :=
  chisquare_spectroscopic_yerr [0, 4] (by norm_num)

/-! ### C8 -/

theorem xerr_const_eval (f : ℝ → ℝ) (llhf : ℝ → ℝ → ℝ) (x y xerr c : ℝ)
    (hconst : ∀ t, xerrVals f llhf x y xerr t = c) :
    likelihood_x_err_point f llhf x y xerr
      = c + Real.log ((∑ t : Fin 1024, Real.exp (-(thetaGrid t * thetaGrid t) * (1 / 2)))
          / (sqrt2pi * xerr)) := by
  have hfun : xerrVals f llhf x y xerr = fun _ => c := funext hconst
  have hmax : colMax (xerrVals f llhf x y xerr) = c := by
    unfold colMax
    rw [hfun]
    exact Finset.sup'_const _ c
  unfold likelihood_x_err_point
  rw [hmax]
  have hsum : (∑ t : Fin 1024,
      Real.exp (xerrVals f llhf x y xerr t - c) * gaussKernel xerr t.rev)
        = ∑ t : Fin 1024, gaussKernel xerr t.rev := by
    apply Finset.sum_congr rfl
    intro t _
    rw [hconst t, sub_self, Real.exp_zero, one_mul]
  rw [hsum, Fin.rev_involutive.bijective.sum_comp (gaussKernel xerr)]
  unfold gaussKernel
  rw [← Finset.sum_div]
  exact add_comm _ c

theorem theta512 : thetaGrid midIndex = 5 / 1023 := by
  unfold thetaGrid midIndex
  have h : ((⟨512, by norm_num⟩ : Fin 1024) : ℝ) = 512 := by
    simp
  rw [h]
  norm_num

theorem half_theta_sq_le_one :
    -(1 : ℝ) ≤ -(thetaGrid midIndex * thetaGrid midIndex) * (1 / 2) := by
  rw [theta512]
  norm_num

theorem gridSum_lower : Real.exp (-1)
    ≤ ∑ t : Fin 1024, Real.exp (-(thetaGrid t * thetaGrid t) * (1 / 2)) := by
  have h1 : Real.exp (-1)
      ≤ Real.exp (-(thetaGrid midIndex * thetaGrid midIndex) * (1 / 2)) :=
    Real.exp_le_exp.mpr half_theta_sq_le_one
  refine h1.trans ?_
  exact @Finset.single_le_sum (Fin 1024) ℝ _
    (fun t => Real.exp (-(thetaGrid t * thetaGrid t) * (1 / 2)))
    Finset.univ (fun t _ => (Real.exp_pos _).le) midIndex (Finset.mem_univ midIndex)

theorem sqrt2pi_le_three : sqrt2pi ≤ 3 := by
  unfold sqrt2pi
  have hpi : Real.pi ≤ 4 := Real.pi_le_four
  have h9 : Real.sqrt 9 = 3 := by
    rw [show (9 : ℝ) = 3 ^ 2 by norm_num, Real.sqrt_sq (by norm_num : (0 : ℝ) ≤ 3)]
  calc Real.sqrt (2 * Real.pi) ≤ Real.sqrt 9 := Real.sqrt_le_sqrt (by linarith)
  _ = 3 := h9

theorem sqrt2pi_pos : 0 < sqrt2pi := by
  unfold sqrt2pi
  exact Real.sqrt_pos.mpr (by positivity)

/-- Counterexample to C8: for a model whose response does not depend on x at
all (so the convolution integrand is exactly the plain likelihood) and the
zero loglikelihood, the convolution routine at `sigma_x = 1e-8` returns a
value exceeding the plain per-point loglikelihood by more than 1 — the
unnormalized discrete kernel contributes `log(Σ exp(-θ²/2)/(√(2π)·σx))`,
which grows without bound as `σx → 0` instead of vanishing. -/
theorem likelihood_x_err_not_plain_at_small_sigma :
    1 < likelihood_x_err_point constZeroModel zeroLlh 0 0 1e-8
        - likelihood_loglikelihood_point constZeroModel zeroLlh 0 0 := by
  have hplain : likelihood_loglikelihood_point constZeroModel zeroLlh 0 0 = 0 := rfl
  have hconv : likelihood_x_err_point constZeroModel zeroLlh 0 0 1e-8
      = 0 + Real.log ((∑ t : Fin 1024, Real.exp (-(thetaGrid t * thetaGrid t) * (1 / 2)))
          / (sqrt2pi * 1e-8)) :=
    xerr_const_eval constZeroModel zeroLlh 0 0 1e-8 0 (fun _ => rfl)
  rw [hconv, hplain, zero_add, sub_zero]
  have hS_pos : 0 < ∑ t : Fin 1024, Real.exp (-(thetaGrid t * thetaGrid t) * (1 / 2)) :=
    Finset.sum_pos (fun t _ => Real.exp_pos _) Finset.univ_nonempty
  have hd_pos : 0 < sqrt2pi * 1e-8 := mul_pos sqrt2pi_pos (by norm_num)
  rw [Real.lt_log_iff_exp_lt (div_pos hS_pos hd_pos)]
  have hd_le : sqrt2pi * 1e-8 ≤ 3e-8 := by
    have := mul_le_mul_of_nonneg_right sqrt2pi_le_three (by norm_num : (0 : ℝ) ≤ 1e-8)
    linarith
  have hfrac : Real.exp (-1) / 3e-8
      ≤ (∑ t : Fin 1024, Real.exp (-(thetaGrid t * thetaGrid t) * (1 / 2)))
          / (sqrt2pi * 1e-8) :=
    div_le_div₀ hS_pos.le gridSum_lower hd_pos hd_le
  have hkey : Real.exp 1 < Real.exp (-1) / 3e-8 := by
    rw [Real.exp_neg, inv_eq_one_div, div_div, lt_div_iff₀ (by positivity)]
    nlinarith [Real.exp_one_lt_d9, Real.exp_pos 1]
  exact hkey.trans_le hfrac

open scoped Classical in
/-- C8 amended: evaluating the likelihood with `sigma_x = 1e-8` does reproduce
the no-x-error per-point values — but exactly, and only because
`likelihood_loglikelihood` short-circuits through its `np.allclose(0, xerr)`
guard (whose atol is 1e-8), never invoking the convolution; the convolution
routine itself does not reduce to the plain likelihood as the x-uncertainty
goes to zero: whenever the integrand is constant over the latent grid it
returns the plain value shifted by the additive constant
`log(Σ exp(-θ²/2)/(√(2π)·σx))`, which diverges as `σx → 0`. -/
theorem likelihood_xerr_guard_and_offset (f : ℝ → ℝ) (llhf : ℝ → ℝ → ℝ) (x y : ℝ) :
    likelihood_loglikelihood_model f llhf x y (some 1e-8)
        = likelihood_loglikelihood_point f llhf x y ∧
      (∀ xerr c : ℝ, (∀ t, xerrVals f llhf x y xerr t = c) →
        likelihood_x_err_point f llhf x y xerr
          = c + Real.log ((∑ t : Fin 1024,
              Real.exp (-(thetaGrid t * thetaGrid t) * (1 / 2))) / (sqrt2pi * xerr))) := by
  constructor
  · have hclose : npIsCloseR 0 1e-8 := by
      unfold npIsCloseR
      rw [zero_sub, abs_neg, abs_of_nonneg (by norm_num : (0 : ℝ) ≤ 1e-8)]
      norm_num
    show (if npIsCloseR 0 1e-8 then likelihood_loglikelihood_point f llhf x y
        else likelihood_x_err_point f llhf x y 1e-8)
      = likelihood_loglikelihood_point f llhf x y
    rw [if_pos hclose]
  · exact fun xerr c h => xerr_const_eval f llhf x y xerr c h

/-- Witness for C8 (amended): the constant-zero model and zero loglikelihood,
with the convolution evaluated at `xerr = 1`. -/
theorem likelihood_xerr_guard_and_offset_witness :
    likelihood_loglikelihood_model constZeroModel zeroLlh 0 0 (some 1e-8)
        = likelihood_loglikelihood_point constZeroModel zeroLlh 0 0 ∧
      likelihood_x_err_point constZeroModel zeroLlh 0 0 1
        = 0 + Real.log ((∑ t : Fin 1024,
            Real.exp (-(thetaGrid t * thetaGrid t) * (1 / 2))) / (sqrt2pi * 1)) :=
  ⟨(likelihood_xerr_guard_and_offset constZeroModel zeroLlh 0 0).1,
    (likelihood_xerr_guard_and_offset constZeroModel zeroLlh 0 0).2 1 0 (fun _ => rfl)⟩

end Satlas
